import Mathlib

/-!
# Verification of the `ipfilter` blocklist store and refresh pipeline

Shallow embedding of `pkg/iplist/list.go` (package `iplist`): the address
parser `parseAddress` (together with the Go standard-library functions
`net.ParseCIDR`, `parseIPv4`, `parseIPv6`, `dtoi`, `xtoi` it relies on),
the thread-safe `List` store (`NewList`, `Len`, `Contains`, `Add`) and the
`GitHubLoader.Load` refresh operation.

Conventions of the embedding:
* Go byte strings are modelled as `List Char` / `String`; all inputs of
  interest are ASCII, where one Go byte corresponds to one `Char`.
  Byte comparisons such as `'0' <= s[i]` are written on `Char.toNat`.
* Machine integers are modelled as `Nat`; the Go code never overflows the
  quantities modelled here (`dtoi`/`xtoi` cap their accumulators at
  `big = 0xFFFFFF` exactly as the source does).
* A Go runtime panic (out-of-range slice write) is modelled by `Option`
  with `none` for the panic.
* A `nil` pointer (`*net.IPNet`, `net.IP`) is modelled with `Option`.
-/

set_option linter.unusedVariables false

/-- `big` from Go `net/parse.go`: overflow cutoff of `dtoi`/`xtoi`. -/
def big : Nat := 0xFFFFFF

/-- Decimal digit test `'0' <= c && c <= '9'` on byte values. -/
def isDigitB (c : Char) : Bool := 48 ≤ c.toNat ∧ c.toNat ≤ 57

/-- Model of Go `dtoi(s)` (net/parse.go): reads a decimal prefix.
Returns `(n, i, ok)`: value, number of bytes consumed, success flag.
`dtoiAux s n i` is the loop with accumulator `n` and index `i`. -/
def dtoiAux : List Char → Nat → Nat → Nat × Nat × Bool
  | [], n, i => if i = 0 then (0, 0, false) else (n, i, true)
  | c :: cs, n, i =>
    if isDigitB c then
      let n2 := n * 10 + (c.toNat - 48)
      if big ≤ n2 then (big, i, false)
      else dtoiAux cs n2 (i + 1)
    else if i = 0 then (0, 0, false) else (n, i, true)

def dtoi (s : List Char) : Nat × Nat × Bool := dtoiAux s 0 0

/-- Hex digit value of a byte, if it is a hex digit (Go `xtoi` cases). -/
def hexVal (c : Char) : Option Nat :=
  if 48 ≤ c.toNat ∧ c.toNat ≤ 57 then some (c.toNat - 48)
  else if 97 ≤ c.toNat ∧ c.toNat ≤ 102 then some (c.toNat - 97 + 10)
  else if 65 ≤ c.toNat ∧ c.toNat ≤ 70 then some (c.toNat - 65 + 10)
  else none

/-- Model of Go `xtoi(s)` (net/parse.go): reads a hexadecimal prefix. -/
def xtoiAux : List Char → Nat → Nat → Nat × Nat × Bool
  | [], n, i => if i = 0 then (0, 0, false) else (n, i, true)
  | c :: cs, n, i =>
    match hexVal c with
    | some v =>
      let n2 := n * 16 + v
      if big ≤ n2 then (0, i, false)
      else xtoiAux cs n2 (i + 1)
    | none => if i = 0 then (0, 0, false) else (n, i, true)

def xtoi (s : List Char) : Nat × Nat × Bool := xtoiAux s 0 0

/-- One field of a dotted quad: `dtoi` plus the range and leading-zero
checks of Go `parseIPv4` (`!ok || n > 0xFF`, `c > 1 && s[0] == '0'`).
Returns the field value and the remaining input. -/
def parseIPv4Field (s : List Char) : Option (Nat × List Char) :=
  let (n, c, ok) := dtoi s
  if ok = false ∨ 255 < n then none
  else if 1 < c ∧ s.headD ' ' = '0' then none
  else some (n, s.drop c)

/-- `i > 0` steps of Go `parseIPv4` expect a literal `'.'`. -/
def expectDot : List Char → Option (List Char)
  | '.' :: rest => some rest
  | _ => none

/-- Model of Go `parseIPv4(s)` (net/ip.go): a full dotted quad, entire
input consumed; result is the 32-bit value of the address. -/
def parseIPv4 (s : List Char) : Option Nat := do
  let (a, s1) ← parseIPv4Field s
  let s1d ← expectDot s1
  let (b, s2) ← parseIPv4Field s1d
  let s2d ← expectDot s2
  let (c, s3) ← parseIPv4Field s2d
  let s3d ← expectDot s3
  let (d, s4) ← parseIPv4Field s3d
  if s4.length = 0 then pure (((a * 256 + b) * 256 + c) * 256 + d) else none

/-- The four bytes of a 32-bit value, big-endian. -/
def bytes4 (v : Nat) : List Nat :=
  [v / 2 ^ 24 % 256, v / 2 ^ 16 % 256, v / 2 ^ 8 % 256, v % 256]

/-- Post-loop logic of Go `parseIPv6`: expand the ellipsis (`::`) to the
missing zero bytes, or require exactly 16 bytes when there is none. -/
def parseIPv6Finish (acc : List Nat) (ell : Option Nat) : Option (List Nat) :=
  if acc.length < 16 then
    match ell with
    | none => none
    | some e => some (acc.take e ++ List.replicate (16 - acc.length) 0 ++ acc.drop e)
  else
    match ell with
    | none => some acc
    | some _ => none

/-- Main loop of Go `parseIPv6` (net/ip.go).  `acc` is the byte array
filled so far (Go's `ip[:i]`), `ell` the ellipsis position.  The loop runs
at most 8 times (each iteration appends two bytes and is guarded by
`i < 16`), so a fuel of 9 is never exhausted when entered from
`parseIPv6`; fuel only makes the recursion structural. -/
def parseIPv6Loop : Nat → List Char → List Nat → Option Nat → Option (List Nat)
  | 0, _, _, _ => none
  | fuel + 1, s, acc, ell =>
    let (n, c, ok) := xtoi s
    if ok = false ∨ 65535 < n then none
    else if c < s.length ∧ (s.drop c).headD ' ' = '.' then
      -- trailing dotted quad, e.g. "::ffff:1.2.3.4"
      if (ell = none ∧ acc.length ≠ 12) ∨ 16 < acc.length + 4 then none
      else
        match parseIPv4 s with
        | none => none
        | some v => parseIPv6Finish (acc ++ bytes4 v) ell
    else
      let acc2 := acc ++ [n / 256, n % 256]
      let s2 := s.drop c
      if s2.length = 0 then parseIPv6Finish acc2 ell
      else if s2.headD ' ' ≠ ':' ∨ s2.length = 1 then none
      else
        let s3 := s2.drop 1
        if s3.headD ' ' = ':' then
          if ell.isSome then none
          else
            let s4 := s3.drop 1
            if s4.length = 0 then parseIPv6Finish acc2 (some acc2.length)
            else if acc2.length < 16 then parseIPv6Loop fuel s4 acc2 (some acc2.length)
            else none
        else if acc2.length < 16 then parseIPv6Loop fuel s3 acc2 ell
        else none

/-- Big-endian byte list to value. -/
def bytesToNat (bs : List Nat) : Nat := bs.foldl (fun a b => a * 256 + b) 0

/-- Model of Go `parseIPv6(s)`: 128-bit value of the address. -/
def parseIPv6 (s : List Char) : Option Nat :=
  if 2 ≤ s.length ∧ s.headD ' ' = ':' ∧ (s.drop 1).headD ' ' = ':' then
    let s2 := s.drop 2
    if s2.length = 0 then some 0
    else (parseIPv6Loop 9 s2 [] (some 0)).map bytesToNat
  else (parseIPv6Loop 9 s [] none).map bytesToNat

/-- An IP address: a 4-byte or a 16-byte `net.IP`, as a value. -/
inductive IPAddr where
  | v4 (val : Nat)
  | v6 (val : Nat)
  deriving DecidableEq

/-- `net.IPNet` as produced by `net.ParseCIDR`: the base address (already
masked, `ip.Mask(m)`) and the number of mask bits; the mask length in
bytes always matches the family of `base` for values built by the parser. -/
structure NetRange where
  base : IPAddr
  prefixLen : Nat
  deriving DecidableEq

/-- Value of `net.CIDRMask(n, w)` for `n ≤ w`. -/
def maskNat (w n : Nat) : Nat := 2 ^ w - 2 ^ (w - n)

/-- `ip.Mask(m)`: byte-wise AND of address and mask. -/
def maskApply (v w n : Nat) : Nat := Nat.land v (maskNat w n)

/-- First `'/'` split of Go `net.ParseCIDR` (`byteIndex(s, '/')`). -/
def splitSlash : List Char → Option (List Char × List Char)
  | [] => none
  | c :: rest =>
    if c = '/' then some ([], rest)
    else (splitSlash rest).map (fun p => (c :: p.1, p.2))

/-- Model of Go `net.ParseCIDR(s)` restricted to its second result (the
`*net.IPNet`), which is all `parseAddress` keeps.  The address part is
first tried as IPv4, then as IPv6 (`parseIPv6Zone` discards a `%zone`
suffix before parsing). -/
def parseCIDR (s : List Char) : Option NetRange :=
  match splitSlash s with
  | none => none
  | some (addr, mask) =>
    let (n, i, ok) := dtoi mask
    match parseIPv4 addr with
    | some v =>
      if ok = true ∧ i = mask.length ∧ n ≤ 32 then
        some ⟨.v4 (maskApply v 32 n), n⟩
      else none
    | none =>
      match parseIPv6 (addr.takeWhile (fun c => c ≠ '%')) with
      | some v =>
        if ok = true ∧ i = mask.length ∧ n ≤ 128 then
          some ⟨.v6 (maskApply v 128 n), n⟩
        else none
      | none => none

/-- Model of `parseAddress` (pkg/iplist/list.go): append `"/32"` when the
input has no `'/'`, then `net.ParseCIDR`. -/
def parseAddress (s : String) : Option NetRange :=
  if s.toList.contains '/' then parseCIDR s.toList
  else parseCIDR (s.toList ++ ['/', '3', '2'])

/-! ## `net.IPNet.Contains` and the `List` store -/

/-- Go `IP.To4()`: a 4-byte address is returned as is; a 16-byte address
whose first twelve bytes are `0,…,0,0xff,0xff` is shortened; otherwise nil. -/
def IPAddr.to4 : IPAddr → Option IPAddr
  | .v4 v => some (.v4 v)
  | .v6 v => if v / 2 ^ 32 = 65535 then some (.v4 (v % 2 ^ 32)) else none

/-- Go `(*IPNet).Contains(ip)`: both the network number and the probe
address are `To4`-normalized (`networkNumberAndMask`); a 16-byte mask on a
4-byte network number is cut to its last four bytes (`m = m[12:]`, i.e.
the value modulo `2^32`); families must agree; then the masked bytes are
compared. -/
def NetRange.containsIP (r : NetRange) (x : IPAddr) : Bool :=
  let nn := (r.base.to4).getD r.base
  let m : Nat :=
    match r.base, nn with
    | .v4 _, _ => maskNat 32 r.prefixLen
    | .v6 _, .v4 _ => maskNat 128 r.prefixLen % 2 ^ 32
    | .v6 _, .v6 _ => maskNat 128 r.prefixLen
  let x2 := (x.to4).getD x
  match nn, x2 with
  | .v4 a, .v4 b => Nat.land a m = Nat.land b m
  | .v6 a, .v6 b => Nat.land a m = Nat.land b m
  | _, _ => false

/-- The mutable fields of `iplist.List`.  `values` is the fixed-capacity
backing array (`nil` slots are `none`); the `sync.RWMutex` is not part of
the sequential model. -/
structure ListState where
  values : List (Option NetRange)
  version : String
  lastRefresh : Nat
  deriving DecidableEq

/-- `NewList(size)`: a `size`-slot array of nils; `Version` and
`LastRefresh` are Go zero values. -/
def newList (size : Nat) : ListState :=
  { values := List.replicate size none, version := "", lastRefresh := 0 }

/-- `(*List).Len()`: scan from index 0, stop at the first nil slot. -/
def listLen : List (Option NetRange) → Nat
  | [] => 0
  | none :: _ => 0
  | some _ :: rest => 1 + listLen rest

/-- Scan of `(*List).Contains`: stop at the first nil slot, else test each
range. -/
def containsLoop : List (Option NetRange) → IPAddr → Bool
  | [], _ => false
  | none :: _, _ => false
  | some n :: rest, x => if n.containsIP x then true else containsLoop rest x

/-- `(*List).Contains(ip)`: a nil `ip` is rejected first. -/
def listContains (values : List (Option NetRange)) (ip : Option IPAddr) : Bool :=
  match ip with
  | none => false
  | some x => containsLoop values x

/-- The two loops of `(*List).Add`: write `addresses[i]` into
`values[i]` for every `i < len(addresses)`, then nil out the remaining
slots.  Writing past the end of `values` is an out-of-range panic,
modelled as `none`. -/
def addLoop : List (Option NetRange) → List (Option NetRange) → Option (List (Option NetRange))
  | values, [] => some (values.map (fun _ => none))
  | [], _ :: _ => none
  | _ :: vs, a :: rest => (addLoop vs rest).map (fun l => a :: l)

/-- `(*List).Add(addresses)`. -/
def listAdd (values addresses : List (Option NetRange)) : Option (List (Option NetRange)) :=
  addLoop values addresses

/-! ## `GitHubLoader.Load` -/

/-- One entry of the downloaded ZIP archive, at the abstraction level
`Load` consumes it: name, directory flag, whether `file.Open()` succeeds,
and the lines produced by `bufio.Scanner` over its contents. -/
structure ZipEntry where
  name : String
  isDir : Bool
  openOk : Bool
  lines : List String
  deriving DecidableEq

/-- The error values `Load` can carry in its named return `err`.
The code declares no download-size error: the only members are the two
network failures, `UnchangedVersion`, the `zip.NewReader` failure, and the
values the named return picks up from `file.Open` / `parseAddress`. -/
inductive GoErr where
  | headNetErr
  | unchangedVersion
  | getNetErr
  | zipParseErr
  | openErr (file : String)
  | addrParseErr (line : String)
  deriving DecidableEq

/-- The environment of one `Load` call: the clock, the HEAD result
(`none` = transport error, otherwise the value of
`resp.Header.Get("ETag")`, which is `""` when the header is absent), the
GET body (`none` = transport error; reads from the body never fail in
this model and end with `io.EOF`), and `zip.NewReader` as an oracle from
the downloaded bytes to the archive entries (`none` = parse error). -/
structure LoadEnv where
  now : Nat
  headETag : Option String
  body : Option (List Nat)
  zipEntries : List Nat → Option (List ZipEntry)

/-- What `Load` produces: the `found` count, the final value of the named
return `err`, the state of the `List` afterwards, and an instrumentation
bit recording whether the GET was issued. -/
structure LoadResult where
  found : Nat
  error : Option GoErr
  state : ListState
  didGet : Bool
  deriving DecidableEq

/-- `maxDownloadBytes` (pkg/iplist/list.go). -/
def maxDownloadBytes : Nat := 50000000

/-- The bounded read loop of `Load`: `Read` is called for at most 1024
bytes at a time while `i < maxDownloadBytes`; a read at EOF returns
`(0, io.EOF)` and breaks.  Returns the buffered bytes and the unread rest
of the body. -/
def readLoop (i : Nat) (buf body : List Nat) : List Nat × List Nat :=
  if i < maxDownloadBytes then
    match body with
    | [] => (buf, [])
    | b :: rest =>
      let chunk := (b :: rest).take 1024
      readLoop (i + chunk.length) (buf ++ chunk) ((b :: rest).drop 1024)
  else (buf, body)
  termination_by body.length
  decreasing_by simp [List.length_drop]; omega

/-- The download phase of `Load` (buffer allocation plus `readLoop`). -/
def downloadBody (body : List Nat) : List Nat × List Nat := readLoop 0 [] body

/-- Go `strings.TrimSpace`, restricted to ASCII white space. -/
def isSpaceB (c : Char) : Bool :=
  c.toNat = 32 ∨ c.toNat = 9 ∨ c.toNat = 10 ∨ c.toNat = 11 ∨ c.toNat = 12 ∨ c.toNat = 13

def trimSpace (s : String) : String :=
  String.mk (((s.toList.dropWhile isSpaceB).reverse.dropWhile isSpaceB).reverse)

/-- `strings.HasPrefix(line, "#")`, applied to the raw line. -/
def startsWithHash (s : String) : Bool :=
  match s.toList with
  | '#' :: _ => true
  | _ => false

/-- The suffix filter of `Load`: `strings.HasSuffix(file.Name, suffix)`
or-ed over `fileSuffixList`. -/
def matchesSuffixList (suffixList : List String) (name : String) : Bool :=
  suffixList.any (fun suf => suf.toList.isSuffixOf name.toList)

/-- One line of a worker goroutine: comment lines are skipped without
touching `err`; other lines are trimmed and parsed, and the parse result
is written into the captured named return `err` (`nil` on success), the
parsed range being emitted on success.  This is the sequential schedule
in which each worker runs to completion in file order; for a single
worker it is the behavior guaranteed by the channel-close
happens-before edge. -/
def lineStep (st : List NetRange × Option GoErr) (line : String) : List NetRange × Option GoErr :=
  if startsWithHash line then st
  else
    match parseAddress (trimSpace line) with
    | some r => (st.1 ++ [r], none)
    | none => (st.1, some (.addrParseErr line))

/-- One archive entry: directories and non-matching names are skipped;
a failing `file.Open()` writes `err` and skips the entry; a successful
open writes `err = nil` and runs the worker over the entry's lines. -/
def entryStep (suffixList : List String) (st : List NetRange × Option GoErr)
    (e : ZipEntry) : List NetRange × Option GoErr :=
  if e.isDir then st
  else if matchesSuffixList suffixList e.name = false then st
  else if e.openOk = false then (st.1, some (.openErr e.name))
  else e.lines.foldl lineStep (st.1, none)

/-- `GitHubLoader` configuration (the logger is a side effect outside the
model; the URL only addresses the requests, which the environment
answers). -/
structure GitHubLoader where
  archiveURL : String
  fileSuffixList : List String

/-- Model of `GitHubLoader.Load` (pkg/iplist/list.go).  A `none` result
is a runtime panic (the out-of-range write in `List.Add`).  Mirrors the
source order: `LastRefresh` is assigned first; then HEAD, the version
comparison, GET, the bounded read, `zip.NewReader`; then the entries are
processed and the collection is `Add`ed, after which `Version` is
assigned. -/
def GitHubLoader.Load (l : GitHubLoader) (env : LoadEnv) (st0 : ListState) :
    Option LoadResult :=
  let st := { st0 with lastRefresh := env.now }
  match env.headETag with
  | none => some ⟨0, some .headNetErr, st, false⟩
  | some tETag =>
    if tETag = st.version then some ⟨0, some .unchangedVersion, st, false⟩
    else
      match env.body with
      | none => some ⟨0, some .getNetErr, st, true⟩
      | some body =>
        let buf := (downloadBody body).1
        match env.zipEntries buf with
        | none => some ⟨0, some .zipParseErr, st, true⟩
        | some entries =>
          let res := entries.foldl (entryStep l.fileSuffixList) ([], none)
          match listAdd st.values (res.1.map some) with
          | none => none
          | some vs =>
            some ⟨res.1.length, res.2,
                  { st with values := vs, version := tETag }, true⟩

/-! ## Store lemmas -/

/-- All slots nil. -/
def noneAll : List (Option NetRange) → Bool
  | [] => true
  | none :: rest => noneAll rest
  | some _ :: _ => false

/-- The contiguity invariant of the store: populated slots form a prefix
of the array; after the first nil slot everything is nil. -/
def contiguousB : List (Option NetRange) → Bool
  | [] => true
  | some _ :: rest => contiguousB rest
  | none :: rest => noneAll rest

theorem noneAll_replicate (k : Nat) : noneAll (List.replicate k none) = true := by
  induction k with
  | zero => rfl
  | succ k ih => simpa [List.replicate, noneAll] using ih

theorem noneAll_not_mem {l : List (Option NetRange)} (h : noneAll l = true)
    {r : NetRange} : some r ∉ l := by
  induction l with
  | nil => simp
  | cons a rest ih =>
    cases a with
    | none => simpa [noneAll] using fun hm => (ih (by simpa [noneAll] using h)) hm
    | some b => simp [noneAll] at h

theorem contiguousB_replicate (k : Nat) : contiguousB (List.replicate k none) = true := by
  cases k with
  | zero => rfl
  | succ k => simpa [List.replicate, contiguousB] using noneAll_replicate k

theorem contiguousB_append {addrs : List (Option NetRange)} (k : Nat)
    (h : ∀ a ∈ addrs, a ≠ none) :
    contiguousB (addrs ++ List.replicate k none) = true := by
  induction addrs with
  | nil => simpa using contiguousB_replicate k
  | cons a rest ih =>
    cases a with
    | none => exact absurd rfl (h none (by simp))
    | some r =>
      simpa [contiguousB] using ih (fun x hx => h x (by simp [hx]))

theorem containsLoop_iff {values : List (Option NetRange)}
    (h : contiguousB values = true) (x : IPAddr) :
    containsLoop values x = true ↔ ∃ r, some r ∈ values ∧ r.containsIP x = true := by
  induction values with
  | nil => simp [containsLoop]
  | cons a rest ih =>
    cases a with
    | none =>
      have hall : noneAll rest = true := by simpa [contiguousB] using h
      simp only [containsLoop]
      constructor
      · intro hfalse; cases hfalse
      · rintro ⟨r, hr, hc⟩
        rcases List.mem_cons.mp hr with h1 | h2
        · cases h1
        · exact absurd h2 (noneAll_not_mem hall)
    | some n =>
      have hrest : contiguousB rest = true := by simpa [contiguousB] using h
      by_cases hn : n.containsIP x = true
      · simp only [containsLoop, hn, if_true]
        constructor
        · intro _; exact ⟨n, by simp, hn⟩
        · intro _; trivial
      · simp only [containsLoop, hn, if_false, Bool.false_eq_true]
        rw [ih hrest]
        constructor
        · rintro ⟨r, hr, hc⟩; exact ⟨r, by simp [hr], hc⟩
        · rintro ⟨r, hr, hc⟩
          rcases List.mem_cons.mp hr with h1 | h2
          · exact absurd hc (by simpa [← Option.some_inj.mp h1] using hn)
          · exact ⟨r, h2, hc⟩

theorem addLoop_eq {addrs : List (Option NetRange)} :
    ∀ values : List (Option NetRange), addrs.length ≤ values.length →
    addLoop values addrs =
      some (addrs ++ List.replicate (values.length - addrs.length) none) := by
  induction addrs with
  | nil =>
    intro values _
    have hmap : values.map (fun _ => (none : Option NetRange))
        = List.replicate values.length none := by
      induction values with
      | nil => rfl
      | cons v vs ihv => simp [List.replicate_succ, ihv]
    simp [addLoop, hmap]
  | cons a rest ih =>
    intro values hlen
    cases values with
    | nil => simp at hlen
    | cons v vs =>
      have h2 : rest.length ≤ vs.length := by simpa using hlen
      simp [addLoop, ih vs h2]

theorem addLoop_panic {addrs : List (Option NetRange)} :
    ∀ values : List (Option NetRange), values.length < addrs.length →
    addLoop values addrs = none := by
  induction addrs with
  | nil => intro values h; simp at h
  | cons a rest ih =>
    intro values hlen
    cases values with
    | nil => rfl
    | cons v vs =>
      have h2 : vs.length < rest.length := by simpa using hlen
      simp [addLoop, ih vs h2]

theorem listLen_append {addrs : List (Option NetRange)} (k : Nat)
    (h : ∀ a ∈ addrs, a ≠ none) :
    listLen (addrs ++ List.replicate k none) = addrs.length := by
  induction addrs with
  | nil =>
    cases k with
    | zero => rfl
    | succ k => simp [List.replicate, listLen]
  | cons a rest ih =>
    cases a with
    | none => exact absurd rfl (h none (by simp))
    | some r =>
      have := ih (fun x hx => h x (by simp [hx]))
      simp [listLen, this, Nat.add_comm]

/-! ## Loader lemmas -/

/-- The entry filter of the claims: non-directory entries whose name ends
with one of the configured suffixes. -/
def keepEntry (suffixList : List String) (e : ZipEntry) : Bool :=
  e.isDir = false ∧ matchesSuffixList suffixList e.name = true

/-- The well-formed (non-comment, parseable after trimming) lines of a
file, as ranges. -/
def parsedLines (lines : List String) : List NetRange :=
  lines.filterMap (fun l =>
    if startsWithHash l then none else parseAddress (trimSpace l))

/-- The ranges `Load` collects: well-formed lines of the kept entries
whose `Open` succeeds, in file order. -/
def parsedRangesCode (suffixList : List String) (entries : List ZipEntry) : List NetRange :=
  (entries.filter (fun e => keepEntry suffixList e ∧ e.openOk = true)).flatMap
    (fun e => parsedLines e.lines)

/-- The count the claims speak about: well-formed lines across all kept
entries (no `Open`-failure provision). -/
def wellFormedCount (suffixList : List String) (entries : List ZipEntry) : Nat :=
  ((entries.filter (keepEntry suffixList)).flatMap (fun e => parsedLines e.lines)).length

theorem lineStep_foldl_fst (lines : List String) :
    ∀ acc e, (lines.foldl lineStep (acc, e)).1 = acc ++ parsedLines lines := by
  induction lines with
  | nil => intro acc e; simp [parsedLines]
  | cons l rest ih =>
    intro acc e
    by_cases hl : startsWithHash l
    · simp [lineStep, hl, ih, parsedLines]
    · cases hp : parseAddress (trimSpace l) with
      | none => simp [lineStep, hl, hp, ih, parsedLines]
      | some r => simp [lineStep, hl, hp, ih, parsedLines]

theorem entryStep_dir (suffixList : List String) (st : List NetRange × Option GoErr)
    (e : ZipEntry) (h : e.isDir = true) : entryStep suffixList st e = st := by
  simp [entryStep, h]

theorem entryStep_nomatch (suffixList : List String) (st : List NetRange × Option GoErr)
    (e : ZipEntry) (h1 : e.isDir = false)
    (h2 : matchesSuffixList suffixList e.name = false) :
    entryStep suffixList st e = st := by
  simp [entryStep, h1, h2]

theorem entryStep_openFail (suffixList : List String) (st : List NetRange × Option GoErr)
    (e : ZipEntry) (h1 : e.isDir = false)
    (h2 : matchesSuffixList suffixList e.name = true) (h3 : e.openOk = false) :
    entryStep suffixList st e = (st.1, some (.openErr e.name)) := by
  simp [entryStep, h1, h2, h3]

theorem entryStep_openOk (suffixList : List String) (st : List NetRange × Option GoErr)
    (e : ZipEntry) (h1 : e.isDir = false)
    (h2 : matchesSuffixList suffixList e.name = true) (h3 : e.openOk = true) :
    entryStep suffixList st e = e.lines.foldl lineStep (st.1, none) := by
  simp [entryStep, h1, h2, h3]

theorem entryStep_foldl_fst (suffixList : List String) (entries : List ZipEntry) :
    ∀ acc e, (entries.foldl (entryStep suffixList) (acc, e)).1
      = acc ++ parsedRangesCode suffixList entries := by
  induction entries with
  | nil => intro acc e; simp [parsedRangesCode]
  | cons x rest ih =>
    intro acc e
    cases hdir : x.isDir with
    | true =>
      simp only [List.foldl_cons, entryStep_dir _ _ _ hdir, ih]
      simp [parsedRangesCode, keepEntry, hdir]
    | false =>
      cases hm : matchesSuffixList suffixList x.name with
      | false =>
        simp only [List.foldl_cons, entryStep_nomatch _ _ _ hdir hm, ih]
        simp [parsedRangesCode, keepEntry, hdir, hm]
      | true =>
        cases ho : x.openOk with
        | false =>
          simp only [List.foldl_cons, entryStep_openFail _ _ _ hdir hm ho, ih]
          simp [parsedRangesCode, keepEntry, hdir, hm, ho]
        | true =>
          simp only [List.foldl_cons, entryStep_openOk _ _ _ hdir hm ho]
          rcases hres : x.lines.foldl lineStep (acc, none) with ⟨racc, rerr⟩
          have hracc : racc = acc ++ parsedLines x.lines := by
            have := lineStep_foldl_fst x.lines acc none
            rw [hres] at this
            exact this
          rw [ih, hracc]
          simp [parsedRangesCode, keepEntry, hdir, hm, ho, List.append_assoc]

/-- The `err` values the entry-processing phase can leave behind: `nil`,
a `file.Open` error, or a `parseAddress` error — never one of the four
infrastructure errors. -/
def benignErr : Option GoErr → Bool
  | none => true
  | some (.openErr _) => true
  | some (.addrParseErr _) => true
  | some _ => false

theorem lineStep_foldl_benign (lines : List String) :
    ∀ acc e, benignErr e = true →
      benignErr (lines.foldl lineStep (acc, e)).2 = true := by
  induction lines with
  | nil => intro acc e he; simpa
  | cons l rest ih =>
    intro acc e he
    by_cases hl : startsWithHash l
    · simpa [lineStep, hl] using ih acc e he
    · cases hp : parseAddress (trimSpace l) with
      | none => simpa [lineStep, hl, hp] using ih acc _ (by simp [benignErr])
      | some r => simpa [lineStep, hl, hp] using ih _ _ (by simp [benignErr])

theorem entryStep_foldl_benign (suffixList : List String) (entries : List ZipEntry) :
    ∀ acc e, benignErr e = true →
      benignErr ((entries.foldl (entryStep suffixList) (acc, e)).2) = true := by
  induction entries with
  | nil => intro acc e he; simpa
  | cons x rest ih =>
    intro acc e he
    cases hdir : x.isDir with
    | true =>
      simpa [entryStep_dir _ _ _ hdir] using ih acc e he
    | false =>
      cases hm : matchesSuffixList suffixList x.name with
      | false =>
        simpa [entryStep_nomatch _ _ _ hdir hm] using ih acc e he
      | true =>
        cases ho : x.openOk with
        | false =>
          simpa [entryStep_openFail _ _ _ hdir hm ho] using
            ih _ _ (by simp [benignErr])
        | true =>
          simp only [List.foldl_cons, entryStep_openOk _ _ _ hdir hm ho]
          rcases hres : x.lines.foldl lineStep (acc, none) with ⟨racc, rerr⟩
          refine ih racc rerr ?_
          have := lineStep_foldl_benign x.lines acc none (by simp [benignErr])
          rw [hres] at this
          exact this

/-! ## Download-loop lemmas -/

/-- How many bytes `readLoop` will still consume when the counter is at
`i`: whole 1024-byte chunks until the counter reaches the cap. -/
def chunksFrom (i : Nat) : Nat :=
  if i < maxDownloadBytes then 1024 * ((maxDownloadBytes - i + 1023) / 1024) else 0

theorem chunksFrom_step {i : Nat} (h : i < maxDownloadBytes) :
    chunksFrom i = 1024 + chunksFrom (i + 1024) := by
  simp only [chunksFrom, maxDownloadBytes] at *
  split <;> split <;> omega

theorem chunksFrom_big {i : Nat} (h : i < maxDownloadBytes) : 1024 ≤ chunksFrom i := by
  simp only [chunksFrom, maxDownloadBytes] at *
  split <;> omega

theorem readLoop_eq_aux : ∀ (n : Nat) (body : List Nat), body.length = n → ∀ i buf,
    readLoop i buf body = (buf ++ body.take (chunksFrom i), body.drop (chunksFrom i)) := by
  intro n
  induction n using Nat.strong_induction_on with
  | _ n ihn =>
    intro body hn i buf
    rw [readLoop.eq_def]
    by_cases hi : i < maxDownloadBytes
    · rw [if_pos hi]
      cases body with
      | nil => simp
      | cons b rest =>
        simp only
        by_cases hlen : (b :: rest).length ≤ 1024
        · -- the final, possibly partial, chunk
          have htake : (b :: rest).take 1024 = b :: rest :=
            List.take_of_length_le hlen
          have hdrop : (b :: rest).drop 1024 = [] := by
            rw [List.drop_eq_nil_iff]
            omega
          rw [htake, hdrop, readLoop.eq_def]
          have hbig := chunksFrom_big hi
          have htake2 : (b :: rest).take (chunksFrom i) = b :: rest :=
            List.take_of_length_le (by omega)
          have hdrop2 : (b :: rest).drop (chunksFrom i) = [] := by
            rw [List.drop_eq_nil_iff]
            omega
          rw [htake2, hdrop2]
          split <;> simp
        · -- a full 1024-byte chunk, then recurse
          have hlen1024 : ((b :: rest).take 1024).length = 1024 := by
            rw [List.length_take]
            omega
          have hrec := ihn ((b :: rest).drop 1024).length
            (by rw [List.length_drop]; omega)
            ((b :: rest).drop 1024) rfl (i + ((b :: rest).take 1024).length)
            (buf ++ (b :: rest).take 1024)
          rw [hrec, hlen1024, chunksFrom_step hi, Prod.mk.injEq]
          refine ⟨?_, ?_⟩
          · rw [List.take_add (b :: rest) 1024 (chunksFrom (i + 1024)), List.append_assoc]
          · rw [List.drop_drop]
    · rw [if_neg hi]
      have : chunksFrom i = 0 := by simp [chunksFrom, hi]
      simp [this]

theorem readLoop_eq (body : List Nat) (i : Nat) (buf : List Nat) :
    readLoop i buf body = (buf ++ body.take (chunksFrom i), body.drop (chunksFrom i)) :=
  readLoop_eq_aux body.length body rfl i buf

/-- `capRead` is the exact number of bytes the download phase consumes
from a sufficiently long body: `1024 * ceil(maxDownloadBytes / 1024)`. -/
def capRead : Nat := 50000896

theorem downloadBody_eq (body : List Nat) :
    downloadBody body = (body.take capRead, body.drop capRead) := by
  have h0 : chunksFrom 0 = capRead := by norm_num [chunksFrom, maxDownloadBytes, capRead]
  rw [downloadBody, readLoop_eq, h0]
  simp

/-! ## Decimal rendering and the `dtoi` round trip -/

/-- Big-endian decimal digits of `n` (canonical: no leading zeros). -/
def decDigs (n : Nat) : List Nat :=
  if h : n < 10 then [n] else decDigs (n / 10) ++ [n % 10]
  termination_by n
  decreasing_by exact Nat.div_lt_self (by omega) (by omega)

def digitChar (d : Nat) : Char := Char.ofNat (48 + d)

/-- Canonical decimal rendering of `n` as characters. -/
def decChars (n : Nat) : List Char := (decDigs n).map digitChar

theorem decDigs_ne_nil (n : Nat) : decDigs n ≠ [] := by
  rw [decDigs]
  split <;> simp

theorem decDigs_lt (n : Nat) : ∀ d ∈ decDigs n, d < 10 := by
  induction n using Nat.strong_induction_on with
  | _ n ih =>
    rw [decDigs]
    split
    next h => intro d hd; simp at hd; omega
    next h =>
      intro d hd
      rcases List.mem_append.mp hd with h1 | h2
      · exact ih (n / 10) (Nat.div_lt_self (by omega) (by omega)) d h1
      · simp at h2; omega

theorem decDigs_head_pos (n : Nat) (hn : 1 ≤ n) :
    (decDigs n).headD 0 ≠ 0 := by
  induction n using Nat.strong_induction_on with
  | _ n ih =>
    rw [decDigs]
    split
    next h => simpa using (by omega : n ≠ 0)
    next h =>
      rcases hne : decDigs (n / 10) with _ | ⟨d, rest⟩
      · exact absurd hne (decDigs_ne_nil _)
      · have := ih (n / 10) (Nat.div_lt_self (by omega) (by omega))
          (by omega : 1 ≤ n / 10)
        rw [hne] at this
        simpa [hne] using this

theorem decDigs_foldl (n : Nat) : ∀ acc : Nat,
    List.foldl (fun a d => a * 10 + d) acc (decDigs n)
      = acc * 10 ^ (decDigs n).length + n := by
  induction n using Nat.strong_induction_on with
  | _ n ih =>
    intro acc
    rw [decDigs]
    split
    next h => simp
    next h =>
      rw [List.foldl_append, ih (n / 10) (Nat.div_lt_self (by omega) (by omega)) acc]
      simp only [List.foldl_cons, List.foldl_nil, List.length_append, List.length_singleton]
      rw [pow_succ]
      have := Nat.div_add_mod n 10
      ring_nf
      omega

theorem decDigs_len_one {n : Nat} (h : n < 10) : (decDigs n).length = 1 := by
  rw [decDigs]
  simp [h]

theorem digitChar_toNat : ∀ d, d < 10 → (digitChar d).toNat = 48 + d := by decide

theorem digitChar_isDigit : ∀ d, d < 10 → isDigitB (digitChar d) = true := by decide

theorem digitChar_ne_slash : ∀ d, d < 10 → digitChar d ≠ '/' := by decide

theorem digitChar_eq_zero : ∀ d, d < 10 → (digitChar d = '0' ↔ d = 0) := by decide

/-- The head of `rest` (if any) is not a decimal digit, so `dtoi` stops
exactly there. -/
def headNotDigit (rest : List Char) : Prop :=
  ∀ c, rest.head? = some c → isDigitB c = false

theorem foldl_dec_ge (ds : List Nat) : ∀ a : Nat,
    a ≤ List.foldl (fun x d => x * 10 + d) a ds := by
  induction ds with
  | nil => intro a; simp
  | cons d rest ih =>
    intro a
    calc a ≤ a * 10 + d := by omega
    _ ≤ _ := ih (a * 10 + d)

theorem dtoiAux_digits (ds : List Nat) (rest : List Char) : ∀ acc i,
    (∀ d ∈ ds, d < 10) →
    List.foldl (fun a d => a * 10 + d) acc ds < big →
    dtoiAux (ds.map digitChar ++ rest) acc i
      = dtoiAux rest (List.foldl (fun a d => a * 10 + d) acc ds) (i + ds.length) := by
  induction ds with
  | nil => intro acc i _ _; simp
  | cons d dtail ih =>
    intro acc i hds hbig
    have hd : d < 10 := hds d (by simp)
    simp only [List.map_cons, List.cons_append, dtoiAux, digitChar_isDigit d hd, if_pos]
    have htoNat : (digitChar d).toNat - 48 = d := by
      rw [digitChar_toNat d hd]; omega
    rw [htoNat]
    have hfold : List.foldl (fun a d => a * 10 + d) acc (d :: dtail)
        = List.foldl (fun a d => a * 10 + d) (acc * 10 + d) dtail := by simp
    have hlt : acc * 10 + d < big := by
      have := foldl_dec_ge dtail (acc * 10 + d)
      rw [hfold] at hbig
      omega
    rw [if_neg (by omega)]
    simp only [List.append_eq]
    rw [ih (acc * 10 + d) (i + 1) (fun x hx => hds x (by simp [hx]))
      (by rw [← hfold]; exact hbig)]
    rw [hfold]
    congr 1
    simp
    omega

theorem dtoiAux_stop (rest : List Char) (n i : Nat) (hi : i ≠ 0)
    (h : headNotDigit rest) : dtoiAux rest n i = (n, i, true) := by
  cases rest with
  | nil => simp [dtoiAux, hi]
  | cons c cs =>
    have := h c (by simp)
    simp [dtoiAux, this, hi]

/-- `dtoi` reads back a canonical decimal rendering followed by a
non-digit. -/
theorem dtoi_dec (n : Nat) (rest : List Char) (hn : n < big)
    (hrest : headNotDigit rest) :
    dtoi (decChars n ++ rest) = (n, (decChars n).length, true) := by
  rw [dtoi, decChars, dtoiAux_digits (decDigs n) rest 0 0 (decDigs_lt n)
    (by rw [decDigs_foldl]; omega)]
  rw [decDigs_foldl]
  simp only [Nat.zero_mul, Nat.zero_add]
  rw [dtoiAux_stop rest n _ (by simpa using decDigs_ne_nil n) hrest]
  simp [decChars]

/-! ## Round trip of canonical IPv4/CIDR renderings -/

theorem headNotDigit_dot (t : List Char) : headNotDigit ('.' :: t) := by
  intro ch hch
  simp at hch
  subst hch
  decide

theorem headNotDigit_nil : headNotDigit ([] : List Char) := by
  intro ch hch
  simp at hch

theorem parseIPv4Field_dec (x : Nat) (rest : List Char) (hx : x ≤ 255)
    (hrest : headNotDigit rest) :
    parseIPv4Field (decChars x ++ rest) = some (x, rest) := by
  have hxbig : x < big := by simp only [big]; omega
  have hdt := dtoi_dec x rest hxbig hrest
  simp only [parseIPv4Field, hdt]
  rw [if_neg (by simp; omega)]
  by_cases hx10 : x < 10
  · have hlen : (decChars x).length = 1 := by
      simp [decChars, decDigs_len_one hx10]
    rw [if_neg (by rw [hlen]; simp), hlen]
    have : (decChars x ++ rest).drop (decChars x).length = rest := List.drop_left _ _
    rw [hlen] at this
    rw [this]
  · have hhead : (decChars x ++ rest).headD ' ' ≠ '0' := by
      rcases hne : decDigs x with _ | ⟨d0, t⟩
      · exact absurd hne (decDigs_ne_nil _)
      · have hd0 : d0 < 10 := decDigs_lt x d0 (by simp [hne])
        have hpos := decDigs_head_pos x (by omega)
        rw [hne] at hpos
        simp only [List.headD_cons] at hpos
        simp only [decChars, hne, List.map_cons, List.cons_append, List.headD_cons]
        intro heq
        exact hpos ((digitChar_eq_zero d0 hd0).mp heq)
    rw [if_neg (by intro hand; exact hhead hand.2)]
    have : (decChars x ++ rest).drop (decChars x).length = rest := List.drop_left _ _
    rw [this]

/-- Canonical rendering `"a.b.c.d"`. -/
def renderIPv4 (a b c d : Nat) : List Char :=
  decChars a ++ '.' :: (decChars b ++ '.' :: (decChars c ++ '.' :: decChars d))

/-- The 32-bit value of the quad. -/
def v4val (a b c d : Nat) : Nat := ((a * 256 + b) * 256 + c) * 256 + d

theorem parseIPv4_render (a b c d : Nat) (ha : a ≤ 255) (hb : b ≤ 255)
    (hc : c ≤ 255) (hd : d ≤ 255) :
    parseIPv4 (renderIPv4 a b c d) = some (v4val a b c d) := by
  have h1 := parseIPv4Field_dec a
    ('.' :: (decChars b ++ '.' :: (decChars c ++ '.' :: decChars d))) ha (headNotDigit_dot _)
  have h2 := parseIPv4Field_dec b
    ('.' :: (decChars c ++ '.' :: decChars d)) hb (headNotDigit_dot _)
  have h3 := parseIPv4Field_dec c ('.' :: decChars d) hc (headNotDigit_dot _)
  have h4 : parseIPv4Field (decChars d) = some (d, []) := by
    have := parseIPv4Field_dec d [] hd headNotDigit_nil
    simpa using this
  simp [parseIPv4, renderIPv4, h1, h2, h3, h4, expectDot, v4val]

theorem splitSlash_append (l r : List Char) (h : ∀ ch ∈ l, ch ≠ '/') :
    splitSlash (l ++ '/' :: r) = some (l, r) := by
  induction l with
  | nil => simp [splitSlash]
  | cons c t ih =>
    have hc : c ≠ '/' := h c (by simp)
    simp [splitSlash, hc, ih (fun x hx => h x (by simp [hx]))]

theorem decChars_no_slash (n : Nat) : ∀ ch ∈ decChars n, ch ≠ '/' := by
  intro ch hch
  rcases List.mem_map.mp hch with ⟨d, hd, rfl⟩
  exact digitChar_ne_slash d (decDigs_lt n d hd)

theorem renderIPv4_no_slash (a b c d : Nat) : ∀ ch ∈ renderIPv4 a b c d, ch ≠ '/' := by
  intro ch hch
  simp only [renderIPv4, List.mem_append, List.mem_cons] at hch
  rcases hch with h | h | h | h | h | h | h
  · exact decChars_no_slash _ ch h
  · subst h; decide
  · exact decChars_no_slash _ ch h
  · subst h; decide
  · exact decChars_no_slash _ ch h
  · subst h; decide
  · exact decChars_no_slash _ ch h

/-- Canonical rendering `"a.b.c.d/p"`. -/
def renderIPv4CIDR (a b c d p : Nat) : List Char :=
  renderIPv4 a b c d ++ '/' :: decChars p

theorem parseCIDR_render (a b c d p : Nat) (ha : a ≤ 255) (hb : b ≤ 255)
    (hc : c ≤ 255) (hd : d ≤ 255) (hp : p ≤ 32) :
    parseCIDR (renderIPv4CIDR a b c d p)
      = some ⟨.v4 (maskApply (v4val a b c d) 32 p), p⟩ := by
  have hsplit := splitSlash_append (renderIPv4 a b c d) (decChars p)
    (renderIPv4_no_slash a b c d)
  have hptoi : dtoi (decChars p) = (p, (decChars p).length, true) := by
    have := dtoi_dec p [] (by simp only [big]; omega) headNotDigit_nil
    simpa using this
  simp only [parseCIDR, renderIPv4CIDR, hsplit, hptoi,
    parseIPv4_render a b c d ha hb hc hd]
  simp [hp]

theorem parseAddress_render (a b c d p : Nat) (ha : a ≤ 255) (hb : b ≤ 255)
    (hc : c ≤ 255) (hd : d ≤ 255) (hp : p ≤ 32) :
    parseAddress (String.mk (renderIPv4CIDR a b c d p))
      = some ⟨.v4 (maskApply (v4val a b c d) 32 p), p⟩ := by
  have hmem : '/' ∈ renderIPv4CIDR a b c d p := by
    simp [renderIPv4CIDR]
  have hcont : (String.mk (renderIPv4CIDR a b c d p)).toList.contains '/' = true := by
    simpa [String.toList] using hmem
  rw [parseAddress, if_pos hcont]
  show parseCIDR (renderIPv4CIDR a b c d p) = _
  exact parseCIDR_render a b c d p ha hb hc hd hp

/-- Whatever the address family, an input without `'/'` that parses at
all parses with 32 mask bits, because `parseAddress` appends `"/32"`. -/
theorem parseAddress_noSlash (s : String) (r : NetRange)
    (h : s.toList.contains '/' = false) (hp : parseAddress s = some r) :
    r.prefixLen = 32 := by
  have hno : ∀ ch ∈ s.toList, ch ≠ '/' := by
    intro ch hch heq
    subst heq
    have : s.toList.contains '/' = true := by simpa using hch
    rw [h] at this
    cases this
  rw [parseAddress, if_neg (by rw [h]; simp)] at hp
  have hsplit : splitSlash (s.toList ++ ['/', '3', '2']) = some (s.toList, ['3', '2']) :=
    splitSlash_append s.toList ['3', '2'] hno
  have hd32 : dtoi ['3', '2'] = (32, 2, true) := by decide
  simp only [parseCIDR, hsplit, hd32] at hp
  cases h4 : parseIPv4 s.toList with
  | some v =>
    rw [h4] at hp
    simp at hp
    rw [← hp]
  | none =>
    rw [h4] at hp
    cases h6 : parseIPv6 (s.toList.takeWhile (fun c => c ≠ '%')) with
    | some v =>
      rw [h6] at hp
      simp at hp
      rw [← hp]
    | none =>
      rw [h6] at hp
      cases hp

/-! ## Unfolding `Load` on a successful fetch -/

/-- The spec-side list of ranges: well-formed lines across all kept
entries (`Open` failures not contemplated). -/
def parsedRanges (suffixList : List String) (entries : List ZipEntry) : List NetRange :=
  (entries.filter (keepEntry suffixList)).flatMap (fun e => parsedLines e.lines)

theorem wellFormedCount_eq (suffixList : List String) (entries : List ZipEntry) :
    wellFormedCount suffixList entries = (parsedRanges suffixList entries).length := rfl

theorem parsedRangesCode_eq_spec (suffixList : List String) (entries : List ZipEntry)
    (hopen : ∀ e ∈ entries, e.openOk = true) :
    parsedRangesCode suffixList entries = parsedRanges suffixList entries := by
  unfold parsedRangesCode parsedRanges
  congr 1
  apply List.filter_congr
  intro e he
  simp [hopen e he]

theorem load_eq_entries (l : GitHubLoader) (env : LoadEnv) (st0 : ListState)
    (t : String) (body : List Nat) (entries : List ZipEntry)
    (ht : env.headETag = some t) (hv : t ≠ st0.version)
    (hb : env.body = some body)
    (hz : env.zipEntries (body.take capRead) = some entries) :
    GitHubLoader.Load l env st0 =
      match listAdd st0.values
          (((entries.foldl (entryStep l.fileSuffixList) ([], none)).1).map some) with
      | none => none
      | some vs =>
        some ⟨(entries.foldl (entryStep l.fileSuffixList) ([], none)).1.length,
              (entries.foldl (entryStep l.fileSuffixList) ([], none)).2,
              ⟨vs, t, env.now⟩, true⟩ := by
  have hbuf : (downloadBody body).1 = body.take capRead := by
    rw [downloadBody_eq]
  simp only [GitHubLoader.Load, ht, hv, hb, hbuf, hz]
  simp

/-! ## Claim C1 -/

/-- A loader configuration shared by several concrete scenarios. -/
def fixLoader : GitHubLoader :=
  ⟨"https://github.com/firehol/blocklist-ipsets/archive/master.zip", [".netset"]⟩

def c1Env : LoadEnv :=
  ⟨1, some "v2", some [],
   fun _ => some [⟨"master/bad.netset", false, true, ["1.2.3.4", "zzz"]⟩]⟩

/-- C1: the claim says a line that fails to parse is only logged and that
`Load` returns a nil error whenever HEAD, GET, the body read, the body
close and the ZIP parse all succeed.  The code violates this: the worker
writes each `parseAddress` result into the captured named return `err`,
which is never reset before `return`, so an archive whose single matching
file ends with a malformed line makes `Load` return that parse error.
Here every infrastructure step succeeds (ETag `"v2"`, empty body, an
archive with one matching readable file), one line parses, yet `Load`
returns `found = 1` together with a non-nil parse error. -/
theorem c1_per_line_failure_surfaces_as_load_error :
    GitHubLoader.Load fixLoader c1Env (newList 4)
      = some ⟨1, some (.addrParseErr "zzz"),
              ⟨[some ⟨.v4 16909060, 32⟩, none, none, none], "v2", 1⟩, true⟩ := by
  rw [load_eq_entries fixLoader c1Env (newList 4) "v2" []
    [⟨"master/bad.netset", false, true, ["1.2.3.4", "zzz"]⟩] rfl (by decide) rfl rfl]
  decide

/-! ## Claim C2 -/

def c2Entries : List ZipEntry :=
  [⟨"master/bad.netset", false, true, ["1.2.3.4", "2.3.4.5"]⟩]

def c2Env : LoadEnv := ⟨1, some "v2", some [], fun _ => some c2Entries⟩

/-- C2: the claim says `List.Add` stores the first `capacity` ranges and
silently discards the excess, never failing.  In the code the first loop
of `Add` writes `addresses[i]` into `values[i]` for every
`i < len(addresses)`, so as soon as the collection is larger than the
backing array the write at index `capacity` panics with an index
out-of-range runtime error (modelled as `none`): on a store of capacity 1
both `Add` with two ranges and a whole `Load` that collects two ranges
panic instead of truncating. -/
theorem c2_add_overflow_panics :
    listAdd (List.replicate 1 none)
        [some ⟨.v4 16909060, 32⟩, some ⟨.v4 33752069, 32⟩] = none
    ∧ GitHubLoader.Load fixLoader c2Env (newList 1) = none := by
  constructor
  · decide
  · rw [load_eq_entries fixLoader c2Env (newList 1) "v2" [] c2Entries rfl (by decide) rfl rfl]
    decide

/-! ## Claim C3 -/

def c3Body : List Nat := List.replicate 50001920 0

def c3Env : LoadEnv := ⟨3, some "v9", some c3Body, fun _ => some []⟩

/-- C3: the claim says a body exceeding `maxDownloadBytes` makes `Load`
abort with a distinguished `DownloadTooLarge`/size-exceeded condition
rather than silently truncating.  The code has no such condition: the
read loop simply stops once the byte counter reaches the cap and returns
normally.  On a 50,001,920-byte body the loop buffers exactly the first
50,000,896 bytes (1024-byte chunks until the counter passes 50,000,000),
leaves the remaining 1024 bytes unread with no error of any kind, and
hands the truncated buffer to `zip.NewReader`; with an oracle that
parses that prefix (as an empty archive), the whole `Load` returns with
a nil error — nothing size-related is ever surfaced. -/
theorem c3_counterexample_oversized_body_no_error :
    downloadBody c3Body = (List.replicate 50000896 0, List.replicate 1024 0)
    ∧ GitHubLoader.Load fixLoader c3Env (newList 2)
      = some ⟨0, none, ⟨List.replicate 2 none, "v9", 3⟩, true⟩ := by
  constructor
  · rw [downloadBody_eq, c3Body, List.take_replicate, List.drop_replicate]
    norm_num [capRead]
  · rw [load_eq_entries fixLoader c3Env (newList 2) "v9" c3Body [] rfl (by decide) rfl rfl]
    decide

/-- C3 (amended): the download phase never signals an error of its own;
for every body it buffers exactly the first `capRead = 50,000,896` bytes
(`1024 * (the ceiling of maxDownloadBytes / 1024)`), silently dropping
anything longer, and the buffer handed to the ZIP parser never exceeds
`capRead` bytes — memory stays bounded, but no size-exceeded error
exists. -/
theorem c3_amended_download_truncates_silently (body : List Nat) :
    downloadBody body = (body.take capRead, body.drop capRead)
    ∧ (downloadBody body).1.length ≤ capRead := by
  refine ⟨downloadBody_eq body, ?_⟩
  rw [downloadBody_eq]
  simp [List.length_take]

/-! ## Claim C4 -/

def c4Env : LoadEnv := ⟨5, none, none, fun _ => none⟩

def c4St : ListState := ⟨List.replicate 2 none, "", 0⟩

/-- C4: the claim says a failed `Load` mutates no field of the `List`,
`LastRefresh` included, outside the final `Replace` step.  The very
first statement of `Load` is `list.LastRefresh = time.Now()`: on a HEAD
transport failure the store's `LastRefresh` moves from 0 to the call
time 5 even though the load failed before fetching anything. -/
theorem c4_counterexample_failed_load_mutates_lastRefresh :
    GitHubLoader.Load fixLoader c4Env c4St
      = some ⟨0, some .headNetErr, ⟨List.replicate 2 none, "", 5⟩, false⟩
    ∧ (5 : Nat) ≠ 0 :=
  ⟨by decide, by decide⟩

/-- Exhaustive description of the outcomes of `Load`, by the branch
taken.  Used to analyse which errors go with which store states. -/
theorem load_cases (l : GitHubLoader) (env : LoadEnv) (st0 : ListState)
    (out : LoadResult) (hload : GitHubLoader.Load l env st0 = some out) :
    (env.headETag = none
      ∧ out = ⟨0, some .headNetErr, { st0 with lastRefresh := env.now }, false⟩)
    ∨ (env.headETag = some st0.version
      ∧ out = ⟨0, some .unchangedVersion, { st0 with lastRefresh := env.now }, false⟩)
    ∨ (∃ t, env.headETag = some t ∧ t ≠ st0.version ∧ env.body = none
      ∧ out = ⟨0, some .getNetErr, { st0 with lastRefresh := env.now }, true⟩)
    ∨ (∃ t body, env.headETag = some t ∧ t ≠ st0.version ∧ env.body = some body
      ∧ env.zipEntries (body.take capRead) = none
      ∧ out = ⟨0, some .zipParseErr, { st0 with lastRefresh := env.now }, true⟩)
    ∨ (∃ t body entries vs, env.headETag = some t ∧ t ≠ st0.version
      ∧ env.body = some body
      ∧ env.zipEntries (body.take capRead) = some entries
      ∧ listAdd st0.values
          (((entries.foldl (entryStep l.fileSuffixList) ([], none)).1).map some) = some vs
      ∧ benignErr out.error = true
      ∧ out = ⟨(entries.foldl (entryStep l.fileSuffixList) ([], none)).1.length,
               (entries.foldl (entryStep l.fileSuffixList) ([], none)).2,
               ⟨vs, t, env.now⟩, true⟩) := by
  simp only [GitHubLoader.Load] at hload
  cases ht : env.headETag with
  | none =>
    rw [ht] at hload
    simp only [Option.some.injEq] at hload
    exact Or.inl ⟨rfl, hload.symm⟩
  | some t =>
    rw [ht] at hload
    dsimp only at hload
    by_cases hv : t = st0.version
    · rw [if_pos hv] at hload
      simp only [Option.some.injEq] at hload
      exact Or.inr (Or.inl ⟨by rw [hv], hload.symm⟩)
    · rw [if_neg hv] at hload
      cases hb : env.body with
      | none =>
        rw [hb] at hload
        simp only [Option.some.injEq] at hload
        exact Or.inr (Or.inr (Or.inl ⟨t, rfl, hv, rfl, hload.symm⟩))
      | some body =>
        rw [hb] at hload
        dsimp only at hload
        have hdl : (downloadBody body).1 = body.take capRead := by
          rw [downloadBody_eq]
        rw [hdl] at hload
        cases hz : env.zipEntries (body.take capRead) with
        | none =>
          rw [hz] at hload
          simp only [Option.some.injEq] at hload
          exact Or.inr (Or.inr (Or.inr (Or.inl ⟨t, body, rfl, hv, rfl, hz, hload.symm⟩)))
        | some entries =>
          rw [hz] at hload
          dsimp only at hload
          cases hadd : listAdd st0.values
              (((entries.foldl (entryStep l.fileSuffixList) ([], none)).1).map some) with
          | none =>
            rw [hadd] at hload
            cases hload
          | some vs =>
            rw [hadd] at hload
            simp only [Option.some.injEq] at hload
            refine Or.inr (Or.inr (Or.inr (Or.inr
              ⟨t, body, entries, vs, rfl, hv, rfl, hz, hadd, ?_, hload.symm⟩)))
            rw [← hload]
            exact entryStep_foldl_benign l.fileSuffixList entries [] none rfl

theorem benign_not_infra {e : Option GoErr} (hb : benignErr e = true) :
    e ≠ some .headNetErr ∧ e ≠ some .unchangedVersion
    ∧ e ≠ some .getNetErr ∧ e ≠ some .zipParseErr := by
  rcases e with _ | g
  · simp
  · cases g <;> simp_all [benignErr]

/-- C4 (amended): a `Load` that returns one of the infrastructure
failures (HEAD error, `UnchangedVersion`, GET error, ZIP-parse error)
leaves `values` and `Version` untouched, but `LastRefresh` is always set
to the call time at the start of the call — recording the attempt, per
the field's own documentation — not inside or adjacent to the `Add`
critical section. -/
theorem c4_amended_failed_load_preserves_values_version
    (l : GitHubLoader) (env : LoadEnv) (st0 : ListState) (out : LoadResult)
    (hload : GitHubLoader.Load l env st0 = some out)
    (herr : out.error = some .headNetErr ∨ out.error = some .unchangedVersion
      ∨ out.error = some .getNetErr ∨ out.error = some .zipParseErr) :
    out.state.values = st0.values ∧ out.state.version = st0.version
    ∧ out.state.lastRefresh = env.now := by
  rcases load_cases l env st0 out hload with
    ⟨_, rfl⟩ | ⟨_, rfl⟩ | ⟨t, _, _, _, rfl⟩ | ⟨t, body, _, _, _, _, rfl⟩ |
    ⟨t, body, entries, vs, _, _, _, _, _, hben, rfl⟩
  · exact ⟨rfl, rfl, rfl⟩
  · exact ⟨rfl, rfl, rfl⟩
  · exact ⟨rfl, rfl, rfl⟩
  · exact ⟨rfl, rfl, rfl⟩
  · obtain ⟨h1, h2, h3, h4⟩ := benign_not_infra hben
    rcases herr with h | h | h | h
    · exact absurd h h1
    · exact absurd h h2
    · exact absurd h h3
    · exact absurd h h4

/-- C4 (witness): the amended theorem applied to the HEAD-failure
environment. -/
theorem c4_amended_witness :
    (⟨0, some .headNetErr, ⟨List.replicate 2 none, "", 5⟩, false⟩
        : LoadResult).state.values = c4St.values
    ∧ (⟨0, some .headNetErr, ⟨List.replicate 2 none, "", 5⟩, false⟩
        : LoadResult).state.version = c4St.version
    ∧ (⟨0, some .headNetErr, ⟨List.replicate 2 none, "", 5⟩, false⟩
        : LoadResult).state.lastRefresh = c4Env.now :=
  c4_amended_failed_load_preserves_values_version fixLoader c4Env c4St _
    (by decide) (Or.inl (by decide))

/-! ## Claim C5 -/

/-- C5: the claim says an address without an explicit prefix gets the
narrowest range *for its family* — 32 for IPv4, 128 for IPv6.  The code
appends `"/32"` unconditionally (`address += "/32"`), so an IPv6-style
address gets a /32 super-network, not a /128 host route: `"::1"` parses
to `::/32`, prefix length 32, not 128. -/
theorem c5_counterexample_ipv6_host_gets_32 :
    parseAddress "::1" = some ⟨.v6 0, 32⟩ ∧ (32 : Nat) ≠ 128 :=
  ⟨by decide, by decide⟩

/-- C5 (amended): every address supplied without a `'/'` is parsed with
prefix length 32, whatever the family — host-only for IPv4, a /32
super-network for IPv6-style addresses. -/
theorem c5_amended_no_slash_yields_32 (s : String) (r : NetRange)
    (h : s.toList.contains '/' = false) (hp : parseAddress s = some r) :
    r.prefixLen = 32 :=
  parseAddress_noSlash s r h hp

/-- C5 (witness): the amended theorem applied to `"1.2.3.4"`. -/
theorem c5_amended_witness :
    NetRange.prefixLen ⟨.v4 16909060, 32⟩ = 32 :=
  c5_amended_no_slash_yields_32 "1.2.3.4" ⟨.v4 16909060, 32⟩ (by decide) (by decide)

/-! ## Claim C6 -/

/-- C6: the claim says every valid dotted quad with an explicit prefix
0–32 parses and round-trips to the *same* base/prefix pair.
`net.ParseCIDR` stores `ip.Mask(m)`, the masked base: `"10.0.0.1/8"`
parses to base `10.0.0.0` (167772160), not the input base `10.0.0.1`
(`v4val 10 0 0 1` = 167772161), so the base with host bits set does not
round-trip. -/
theorem c6_counterexample_host_bits_masked :
    parseAddress "10.0.0.1/8" = some ⟨.v4 167772160, 8⟩
    ∧ IPAddr.v4 167772160 ≠ IPAddr.v4 (v4val 10 0 0 1) :=
  ⟨by decide, by decide⟩

/-- C6 (amended): for every dotted quad `a.b.c.d` (octets ≤ 255, written
canonically) with explicit prefix `p ≤ 32`, parsing succeeds and yields
prefix length `p` with the base address masked to its first `p` bits
(`ip AND CIDRMask(p,32)`); in particular the pair round-trips exactly
whenever the input base has no host bits below the mask. -/
theorem c6_amended_roundtrip_masked (a b c d p : Nat) (ha : a ≤ 255)
    (hb : b ≤ 255) (hc : c ≤ 255) (hd : d ≤ 255) (hp : p ≤ 32) :
    parseAddress (String.mk (renderIPv4CIDR a b c d p))
      = some ⟨.v4 (maskApply (v4val a b c d) 32 p), p⟩ :=
  parseAddress_render a b c d p ha hb hc hd hp

/-- C6 (witness): the amended theorem at `"192.168.0.0/24"` (the
repository's own test vector). -/
theorem c6_amended_witness :
    parseAddress (String.mk (renderIPv4CIDR 192 168 0 0 24))
      = some ⟨.v4 (maskApply (v4val 192 168 0 0) 32 24), 24⟩ :=
  c6_amended_roundtrip_masked 192 168 0 0 24 (by decide) (by decide) (by decide)
    (by decide) (by decide)

/-! ## Claim C7 -/

/-- C7: on a successfully fetched and parsed archive in which every
matching entry opens, `Load` returns a `found` count equal to the number
of well-formed (non-comment, parseable) lines across exactly the
non-directory entries whose names end with one of the configured
suffixes — non-matching files and directories contribute nothing — and,
provided that count fits the store's capacity, the store afterwards
answers `Contains = true` for every address inside one of those parsed
ranges. -/
theorem c7_load_found_and_contains
    (l : GitHubLoader) (env : LoadEnv) (st0 : ListState)
    (t : String) (body : List Nat) (entries : List ZipEntry)
    (ht : env.headETag = some t) (hv : t ≠ st0.version)
    (hb : env.body = some body)
    (hz : env.zipEntries (body.take capRead) = some entries)
    (hopen : ∀ e ∈ entries, e.openOk = true)
    (hcap : wellFormedCount l.fileSuffixList entries ≤ st0.values.length) :
    (GitHubLoader.Load l env st0).map LoadResult.found
      = some (wellFormedCount l.fileSuffixList entries)
    ∧ ∀ (x : IPAddr) (r : NetRange),
        r ∈ parsedRanges l.fileSuffixList entries → r.containsIP x = true →
        (GitHubLoader.Load l env st0).map
          (fun out => listContains out.state.values (some x)) = some true := by
  have hcoll : (entries.foldl (entryStep l.fileSuffixList) ([], none)).1
      = parsedRanges l.fileSuffixList entries := by
    have h := entryStep_foldl_fst l.fileSuffixList entries [] none
    rw [parsedRangesCode_eq_spec _ _ hopen] at h
    simpa using h
  have hlen : (((entries.foldl (entryStep l.fileSuffixList) ([], none)).1).map some).length
      ≤ st0.values.length := by
    rw [List.length_map, hcoll, ← wellFormedCount_eq]
    exact hcap
  have hadd := @addLoop_eq
    (((entries.foldl (entryStep l.fileSuffixList) ([], none)).1).map some)
    st0.values hlen
  rw [load_eq_entries l env st0 t body entries ht hv hb hz]
  rw [listAdd, hadd]
  constructor
  · simp only [Option.map_some']
    rw [hcoll, ← wellFormedCount_eq]
  · intro x r hr hcont
    simp only [Option.map_some', Option.some.injEq]
    have hcontig : contiguousB
        ((((entries.foldl (entryStep l.fileSuffixList) ([], none)).1).map some)
          ++ List.replicate (st0.values.length
              - (((entries.foldl (entryStep l.fileSuffixList) ([], none)).1).map some).length)
            none) = true := by
      apply contiguousB_append
      intro a ha
      rcases List.mem_map.mp ha with ⟨y, _, rfl⟩
      simp
    refine (containsLoop_iff hcontig x).mpr ⟨r, ?_, hcont⟩
    apply List.mem_append_left
    apply List.mem_map_of_mem
    rw [hcoll]
    exact hr

def c7Entries : List ZipEntry :=
  [⟨"master/", true, true, []⟩,
   ⟨"master/bad.netset", false, true, ["# hdr", "1.2.3.0/24", "zzz"]⟩,
   ⟨"master/notes.md", false, true, ["9.9.9.9"]⟩]

def c7Env : LoadEnv := ⟨5, some "e1", some [7], fun _ => some c7Entries⟩

def c7Loader : GitHubLoader := ⟨"https://example.test/master.zip", [".netset"]⟩

/-- C7 (witness): a mixed fixture — a directory, one matching file with
a comment, a good line and a malformed line, and a non-matching file
with a good line.  `found` is 1 (only `"1.2.3.0/24"` counts) and the
store contains `1.2.3.77`. -/
theorem c7_witness :
    (GitHubLoader.Load c7Loader c7Env (newList 3)).map LoadResult.found
      = some (wellFormedCount c7Loader.fileSuffixList c7Entries)
    ∧ (GitHubLoader.Load c7Loader c7Env (newList 3)).map
        (fun out => listContains out.state.values (some (.v4 16909133))) = some true := by
  have h := c7_load_found_and_contains c7Loader c7Env (newList 3) "e1" [7] c7Entries
    rfl (by decide) rfl rfl (by decide) (by decide)
  exact ⟨h.1, h.2 (.v4 16909133) ⟨.v4 16909056, 24⟩ (by decide) (by decide)⟩

/-! ## Claim C8 -/

/-- C8: replacing the contents of a store that previously held any `M`
entries with `N ≤ capacity` non-nil ranges succeeds, writes them into
slots `0..N-1`, leaves every slot from `N` to `capacity-1` absent (no
stale data), preserves the contiguity invariant (no populated slot after
an absent one), and `Len` returns exactly `N`. -/
theorem c8_replace_contiguity (values addrs : List (Option NetRange))
    (hlen : addrs.length ≤ values.length) (hnn : ∀ a ∈ addrs, a ≠ none) :
    listAdd values addrs
      = some (addrs ++ List.replicate (values.length - addrs.length) none)
    ∧ listLen (addrs ++ List.replicate (values.length - addrs.length) none)
      = addrs.length
    ∧ contiguousB (addrs ++ List.replicate (values.length - addrs.length) none)
      = true :=
  ⟨addLoop_eq values hlen, listLen_append _ hnn, contiguousB_append _ hnn⟩

/-- C8 (witness): a capacity-3 store holding `M = 3` entries replaced by
`N = 1` range: the two higher slots are nil afterwards, not stale. -/
theorem c8_witness :
    listAdd [some ⟨.v4 1, 32⟩, some ⟨.v4 2, 32⟩, some ⟨.v4 3, 32⟩] [some ⟨.v4 4, 32⟩]
      = some [some ⟨.v4 4, 32⟩, none, none]
    ∧ listLen [some ⟨.v4 4, 32⟩, none, none] = 1
    ∧ contiguousB [some ⟨.v4 4, 32⟩, none, none] = true :=
  c8_replace_contiguity [some ⟨.v4 1, 32⟩, some ⟨.v4 2, 32⟩, some ⟨.v4 3, 32⟩]
    [some ⟨.v4 4, 32⟩] (by decide) (by decide)

/-! ## Claim C9 -/

/-- C9: on any store satisfying the contiguity invariant, `Contains`
answers true exactly when some populated range contains the address; a
freshly constructed store answers false for every address; and a nil
address is always rejected. -/
theorem c9_contains_iff :
    (∀ (values : List (Option NetRange)) (x : IPAddr),
      contiguousB values = true →
      (listContains values (some x) = true
        ↔ ∃ r, some r ∈ values ∧ r.containsIP x = true))
    ∧ (∀ (size : Nat) (ip : Option IPAddr),
        listContains (newList size).values ip = false)
    ∧ (∀ values : List (Option NetRange), listContains values none = false) := by
  refine ⟨?_, ?_, ?_⟩
  · intro values x h
    exact containsLoop_iff h x
  · intro size ip
    cases ip with
    | none => rfl
    | some x =>
      show containsLoop (List.replicate size none) x = false
      cases size with
      | zero => rfl
      | succ k => rfl
  · intro values
    rfl

/-- C9 (witness): the iff applied on a one-slot store: `1.2.3.77` is in
`1.2.3.0/24`. -/
theorem c9_witness :
    listContains [some ⟨.v4 16909056, 24⟩] (some (.v4 16909133)) = true :=
  (c9_contains_iff.1 [some ⟨.v4 16909056, 24⟩] (.v4 16909133) (by decide)).mpr
    ⟨⟨.v4 16909056, 24⟩, by decide, by decide⟩

/-! ## Claim C10 -/

/-- C10: `resp.Header.Get("ETag")` yields `""` when the header is
absent, and a freshly constructed `List` has the zero-value `Version`
`""`, so the very first `Load` against an upstream with no ETag returns
`UnchangedVersion` without issuing the GET and leaves the list empty;
in general `Load` yields `UnchangedVersion` exactly when the HEAD
succeeds and its (possibly empty) ETag equals the store's current
`Version`, and in that case no GET is issued. -/
theorem c10_unchanged_version_iff :
    (∀ (l : GitHubLoader) (size now : Nat) (b : Option (List Nat))
        (z : List Nat → Option (List ZipEntry)),
       GitHubLoader.Load l ⟨now, some "", b, z⟩ (newList size)
         = some ⟨0, some .unchangedVersion, ⟨List.replicate size none, "", now⟩, false⟩)
    ∧ (∀ (l : GitHubLoader) (env : LoadEnv) (st0 : ListState) (out : LoadResult),
        GitHubLoader.Load l env st0 = some out →
        ((out.error = some .unchangedVersion ↔ env.headETag = some st0.version)
          ∧ (out.error = some .unchangedVersion → out.didGet = false))) := by
  constructor
  · intro l size now b z
    rfl
  · intro l env st0 out hload
    rcases load_cases l env st0 out hload with
      ⟨hh, rfl⟩ | ⟨hh, rfl⟩ | ⟨t, hh, hv, hb, rfl⟩ | ⟨t, body, hh, hv, hb, hz, rfl⟩ |
      ⟨t, body, entries, vs, hh, hv, hb, hz, hadd, hben, rfl⟩
    · refine ⟨iff_of_false (by simp) ?_, by simp⟩
      intro hr
      rw [hh] at hr
      cases hr
    · exact ⟨⟨fun _ => hh, fun _ => rfl⟩, fun _ => rfl⟩
    · refine ⟨iff_of_false (by simp) ?_, by simp⟩
      intro hr
      rw [hh] at hr
      exact hv (Option.some_inj.mp hr)
    · refine ⟨iff_of_false (by simp) ?_, by simp⟩
      intro hr
      rw [hh] at hr
      exact hv (Option.some_inj.mp hr)
    · have hne := (benign_not_infra hben).2.1
      refine ⟨iff_of_false hne ?_, fun habs => absurd habs hne⟩
      intro hr
      rw [hh] at hr
      exact hv (Option.some_inj.mp hr)

/-- C10 (witness): a 2-slot fresh list against an upstream whose HEAD
carries no ETag: `UnchangedVersion`, no GET, list still empty; and the
iff instantiated at that outcome. -/
theorem c10_witness :
    GitHubLoader.Load fixLoader ⟨7, some "", none, fun _ => none⟩ (newList 2)
      = some ⟨0, some .unchangedVersion, ⟨List.replicate 2 none, "", 7⟩, false⟩
    ∧ ((⟨0, some .unchangedVersion, ⟨List.replicate 2 none, "", 7⟩, false⟩
          : LoadResult).error = some .unchangedVersion
        ↔ (⟨7, some "", none, fun _ => none⟩ : LoadEnv).headETag
          = some (newList 2).version) :=
  ⟨c10_unchanged_version_iff.1 fixLoader 2 7 none (fun _ => none),
   (c10_unchanged_version_iff.2 fixLoader ⟨7, some "", none, fun _ => none⟩ (newList 2)
     ⟨0, some .unchangedVersion, ⟨List.replicate 2 none, "", 7⟩, false⟩
     (c10_unchanged_version_iff.1 fixLoader 2 7 none (fun _ => none))).1⟩
